import Mathlib

/-!
# Verification of the notebook-navigator synchronization core

Shallow embedding of the repository's Memory Mirror (`src/storage/MemoryFileCache.ts`)
and tag-index utilities (`src/utils/tagTree.ts`), together with proofs settling the
frozen specification claims.

Modelling conventions:
* A JavaScript `Map<string, V>` is modelled as an association list `List (String × V)`
  in insertion order; `Map.get` returns the first binding, `Map.set` updates the
  binding in place when the key is present and appends otherwise.  This matches the
  iteration-order semantics of JS maps.
* A JavaScript `Set<string>` is modelled as a `List String` in insertion order with
  `add` appending only when the element is absent.
* `null`/`undefined` optional values are modelled with `Option`.
-/

/-- `Map.get` of a JS `Map` modelled as an association list: first binding wins. -/
def jsMapGet {α : Type} (m : List (String × α)) (k : String) : Option α :=
  (m.find? (fun e => e.1 == k)).map (fun e => e.2)

/-- `Map.set` of a JS `Map`: update the existing binding in place (keeping its
position) or append a fresh binding at the end. -/
def jsMapSet {α : Type} (m : List (String × α)) (k : String) (v : α) : List (String × α) :=
  if m.any (fun e => e.1 == k) then
    m.map (fun e => if e.1 == k then (e.1, v) else e)
  else
    m ++ [(k, v)]

/-- `Set.add` of a JS `Set` modelled as a duplicate-free list in insertion order. -/
def jsSetAdd (l : List String) (x : String) : List String :=
  if x ∈ l then l else l ++ [x]

/-- The per-file record of the persistent store (`FileData` in
`src/storage/IndexedDBStorage.ts`, as used by `MemoryFileCache.ts`): the fields the
synchronization core reads and writes.  `tags = none` models `tags: null`
("not yet scanned"), distinct from `some []`.  The opaque `metadata` blob is
modelled as an optional string. -/
structure FileData where
  preview : Option String
  featureImage : Option String
  tags : Option (List String)
  metadata : Option String
deriving Repr, DecidableEq

/-- The Memory Mirror state (`MemoryFileCache` in `src/storage/MemoryFileCache.ts`):
the private `memoryMap : Map<string, FileData>` and the `isInitialized` flag. -/
structure MemoryFileCache where
  memoryMap : List (String × FileData)
  isInitialized : Bool
deriving Repr, DecidableEq

/-- A freshly constructed `MemoryFileCache`: empty map, `isInitialized = false`. -/
def emptyCache : MemoryFileCache :=
  { memoryMap := [], isInitialized := false }

/-- Embeds `MemoryFileCache.initialize(filesWithPaths)`: clear the map, insert every
input entry in order, set `isInitialized = true`.  (Named `initializeCache` because
the source's method name is a reserved word in Lean.) -/
def initializeCache (c : MemoryFileCache) (filesWithPaths : List (String × FileData)) :
    MemoryFileCache :=
  { c with
    memoryMap := filesWithPaths.foldl (fun m e => jsMapSet m e.1 e.2) []
    isInitialized := true }

/-- Embeds `MemoryFileCache.getFile(path)`. -/
def getFile (c : MemoryFileCache) (path : String) : Option FileData :=
  jsMapGet c.memoryMap path

/-- Embeds `MemoryFileCache.hasFile(path)`. -/
def hasFile (c : MemoryFileCache) (path : String) : Bool :=
  c.memoryMap.any (fun e => e.1 == path)

/-- Embeds `MemoryFileCache.getAllFilesWithPaths()`: the entries of the map in
iteration (insertion) order. -/
def getAllFilesWithPaths (c : MemoryFileCache) : List (String × FileData) :=
  c.memoryMap

/-- Embeds `MemoryFileCache.updateFile(path, data)`: whole-record upsert. -/
def updateFile (c : MemoryFileCache) (path : String) (data : FileData) : MemoryFileCache :=
  { c with memoryMap := jsMapSet c.memoryMap path data }

/-- Embeds `MemoryFileCache.isReady()`. -/
def isReady (c : MemoryFileCache) : Bool :=
  c.isInitialized

/-- The partial patch taken by `updateFileContent`: a field that is `none` models an
`undefined` (absent) field of the `updates` object and leaves the record's field
untouched; `some v` models a present field and overwrites. -/
structure ContentUpdates where
  preview : Option String
  featureImage : Option String
  metadata : Option String
deriving Repr, DecidableEq

/-- The field-by-field patch body of `updateFileContent`:
`if (updates.f !== undefined) existing.f = updates.f` for each content field. -/
def applyContentUpdates (d : FileData) (up : ContentUpdates) : FileData :=
  { d with
    preview := match up.preview with | some v => some v | none => d.preview
    featureImage := match up.featureImage with | some v => some v | none => d.featureImage
    metadata := match up.metadata with | some v => some v | none => d.metadata }

/-- Embeds `MemoryFileCache.updateFileContent(path, updates)`: look the record up;
if absent do nothing, otherwise mutate the stored record's present fields.  The
in-place mutation of the shared record object is modelled as an update of the map
at that path. -/
def updateFileContent (c : MemoryFileCache) (path : String) (up : ContentUpdates) :
    MemoryFileCache :=
  match jsMapGet c.memoryMap path with
  | none => c
  | some _ =>
    { c with
      memoryMap := c.memoryMap.map (fun e =>
        if e.1 == path then (e.1, applyContentUpdates e.2 up) else e) }

/-- Embeds `MemoryFileCache.batchUpdate(updates)`. -/
def batchUpdate (c : MemoryFileCache) (updates : List (String × FileData)) :
    MemoryFileCache :=
  { c with memoryMap := updates.foldl (fun m e => jsMapSet m e.1 e.2) c.memoryMap }

/-- Embeds `MemoryFileCache.batchUpdateFileContent(updates)`: apply
`updateFileContent` to each `{path, ...fields}` entry in order. -/
def batchUpdateFileContent (c : MemoryFileCache) (updates : List (String × ContentUpdates)) :
    MemoryFileCache :=
  updates.foldl (fun acc e => updateFileContent acc e.1 e.2) c

/-- The argument of `clearAllFileContent`. -/
inductive ClearType where
  | preview
  | featureImage
  | metadata
  | all
deriving Repr, DecidableEq

/-- The per-record body of `clearAllFileContent`: the three
`if (type === 'all' || type === 'f') file.f = null` statements. -/
def clearFileData (t : ClearType) (d : FileData) : FileData :=
  let d := if t = ClearType.all ∨ t = ClearType.preview then { d with preview := none } else d
  let d := if t = ClearType.all ∨ t = ClearType.featureImage then { d with featureImage := none } else d
  if t = ClearType.all ∨ t = ClearType.metadata then { d with metadata := none } else d

/-- Embeds `MemoryFileCache.clearAllFileContent(type)`: mutate every stored record,
removing none. -/
def clearAllFileContent (c : MemoryFileCache) (t : ClearType) : MemoryFileCache :=
  { c with memoryMap := c.memoryMap.map (fun e => (e.1, clearFileData t e.2)) }

-- ### String primitives used by the tag-tree utilities

/-- Model of JavaScript `toLowerCase()` on one character (ASCII case mapping). -/
def jsLowerChar (c : Char) : Char :=
  if 65 ≤ c.toNat ∧ c.toNat ≤ 90 then Char.ofNat (c.toNat + 32) else c

/-- Model of JavaScript `s.toLowerCase()`. -/
def lowerStr (s : String) : String :=
  String.mk (s.data.map jsLowerChar)

/-- Embeds the recurring idiom `s.startsWith('#') ? s.substring(1) : s`. -/
def stripHash (s : String) : String :=
  match s.data with
  | '#' :: rest => String.mk rest
  | _ => s

/-- Splitting on a single-character separator, JavaScript `String.split` style:
every separator occurrence cuts, empty segments are kept. -/
def splitCharAux (sep : Char) : List Char → List Char → List (List Char)
  | [], acc => [acc.reverse]
  | c :: cs, acc =>
    if c = sep then acc.reverse :: splitCharAux sep cs []
    else splitCharAux sep cs (c :: acc)

/-- Embeds `s.split('/')`. -/
def splitSlash (s : String) : List String :=
  (splitCharAux '/' s.data []).map String.mk

/-- Embeds `Array.prototype.join(sep)`. -/
def joinStrings (sep : String) : List String → String
  | [] => ""
  | [x] => x
  | x :: xs => x ++ sep ++ joinStrings sep xs

/-- Model of JavaScript `s.trim()`: strip whitespace from both ends. -/
def jsTrim (s : String) : String :=
  String.mk (((s.data.dropWhile Char.isWhitespace).reverse.dropWhile Char.isWhitespace).reverse)

/-- Embeds `parseTagPatterns(patterns)`: split a comma-separated string, trim each
piece, drop empties. -/
def parseTagPatterns (patterns : String) : List String :=
  (((splitCharAux ',' patterns.data []).map String.mk).map jsTrim).filter
    (fun p => decide (0 < p.length))

/-- The characters JavaScript's regex `.` (no `s` flag) does not match. -/
def isLineTerminator (c : Char) : Bool :=
  c = '\n' || c = '\r' || c = Char.ofNat 0x2028 || c = Char.ofNat 0x2029

/-- The suffixes of a string that `.*` can leave behind: the string itself, and
every suffix obtained by consuming a run of non-line-terminator characters. -/
def starSuffixes : List Char → List (List Char)
  | [] => [[]]
  | c :: cs => (c :: cs) :: (if isLineTerminator c then [] else starSuffixes cs)

/-- Matching semantics of the anchored regex `^e$` that the wildcard branch of
`matchesTagPattern` builds: every character of the pattern is escaped to a literal
except `*`, which becomes `.*` (any run of non-line-terminator characters, i.e.
the remainder continues at any element of `starSuffixes`).  Both sides are
already lowercased by the caller (the `'i'` flag). -/
def wildcardMatch : List Char → List Char → Bool
  | [], s => s.isEmpty
  | '*' :: ps, s => (starSuffixes s).any (fun t => wildcardMatch ps t)
  | _ :: _, [] => false
  | p :: ps, c :: cs => p == c && wildcardMatch ps cs

/-- Abstract model of the JS `RegExp` engine used by the delimited-regex branch of
`matchesTagPattern`: `rc body` is `none` when `new RegExp(body, 'i')` throws a
`SyntaxError` (malformed pattern) and `some test` for the compiled
case-insensitive matcher otherwise.  The regex language itself is not embedded;
statements about this branch are quantified over every engine. -/
def RegexEngine : Type := String → Option (String → Bool)

/-- `head` test for the `cleanPattern.startsWith('/')` check. -/
def headIsSlash (s : String) : Bool :=
  s.data.head? == some '/'

/-- `last` test for the `cleanPattern.endsWith('/')` check. -/
def lastIsSlash (s : String) : Bool :=
  s.data.getLast? == some '/'

/-- Embeds `matchesTagPattern(tagPath, pattern)`: strip `#` from both, use the
delimited-regex branch when the pattern is wrapped in `/…/` (returning `false`
when compilation fails — the `catch` branch), otherwise the anchored
case-insensitive wildcard match. -/
def matchesTagPattern (rc : RegexEngine) (tagPath pattern : String) : Bool :=
  let cleanTag := stripHash tagPath
  let cleanPattern := stripHash pattern
  if headIsSlash cleanPattern && lastIsSlash cleanPattern then
    match rc (String.mk (cleanPattern.data.drop 1).dropLast) with
    | some test => test cleanTag
    | none => false
  else
    wildcardMatch (lowerStr cleanPattern).data (lowerStr cleanTag).data

-- ### The tag tree and its builder

/-- A node of the tag tree (`TagTreeNode` in `src/types/storage.ts`, as built and
consumed by `tagTree.ts`).  Node objects live in a heap keyed by their
case-normalized path (the builder's `allNodes` map); because the source's
`children` map stores each child under exactly its case-normalized full path —
the same key the child has in `allNodes` — a child reference is modelled by that
key.  `notesWithTag` is the JS `Set` in insertion order. -/
structure TagTreeNode where
  name : String
  path : String
  children : List String
  notesWithTag : List String
deriving Repr, DecidableEq

/-- The node heap: the builder's `allNodes` map, through which every node
reference resolves. -/
abbrev Heap := List (String × TagTreeNode)

/-- Dereference a node key.  In the source the map stores the node object with its
key, so on well-formed trees the lookup cannot miss; the default is unreachable
there. -/
def nodeOf (h : Heap) (k : String) : TagTreeNode :=
  (jsMapGet h k).getD ⟨"", "", [], []⟩

/-- In-place mutation of the node object stored at key `k`. -/
def heapModify (h : Heap) (k : String) (f : TagTreeNode → TagTreeNode) : Heap :=
  h.map (fun e => if e.1 == k then (e.1, f e.2) else e)

/-- The builder's state: `allNodes` (all nodes at all levels), `tree` (root-level
keys in insertion order), the `untagged` counter and the `caseMap`
(lowercased tag path → first-seen casing). -/
structure BuildState where
  allNodes : Heap
  tree : List String
  untagged : Nat
  caseMap : List (String × String)
deriving Repr, DecidableEq

/-- `currentPath = i === 0 ? part : currentPath + '/' + part`. -/
def stepPath (i : Nat) (currentPath p : String) : String :=
  if i = 0 then p else currentPath ++ "/" ++ p

/-- One iteration of the builder's inner loop over the `/`-segments of a canonical
tag (index `i`, segment `p`; `currentPath` is the accumulated path of the previous
iteration): find-or-create the node of the current prefix (registering depth-0
nodes in the root `tree` map), attach the file path to the deepest node, then link
the node into its parent's children map.  The source recomputes the parent key as
`parts.slice(0, i).join('/').toLowerCase()`, which is exactly the lowercasing of
the accumulated `currentPath`.  The body is split into its three statements:
`ensureNode`, `attachNote`, `linkParent`, composed by `goStep`. -/
def ensureNode (p : String) (i : Nat) (currentPath' : String) (st : BuildState) :
    BuildState :=
  match jsMapGet st.allNodes (lowerStr currentPath') with
  | some _ => st
  | none =>
    { st with
      allNodes := jsMapSet st.allNodes (lowerStr currentPath') ⟨p, currentPath', [], []⟩
      tree := if i = 0 then jsSetAdd st.tree (lowerStr currentPath') else st.tree }

/-- Second statement: `if (i === parts.length - 1) node.notesWithTag.add(path)` —
an in-place mutation of the node object at `key`. -/
def attachNote (filePath : String) (isLast : Bool) (key : String) (st : BuildState) :
    BuildState :=
  if isLast then
    { st with
      allNodes := heapModify st.allNodes key
        (fun n => { n with notesWithTag := jsSetAdd n.notesWithTag filePath }) }
  else st

/-- Third statement: `if (i > 0)` look the parent up and add this node to its
children map when not already present. -/
def linkParent (i : Nat) (parentKey key : String) (st : BuildState) : BuildState :=
  if i ≠ 0 then
    match jsMapGet st.allNodes parentKey with
    | some parentNode =>
      if key ∈ parentNode.children then st
      else
        { st with
          allNodes := heapModify st.allNodes parentKey
            (fun n => { n with children := n.children ++ [key] }) }
    | none => st
  else st

def goStep (filePath p : String) (isLast : Bool) (i : Nat) (currentPath : String)
    (st : BuildState) : BuildState :=
  linkParent i (lowerStr currentPath) (lowerStr (stepPath i currentPath p))
    (attachNote filePath isLast (lowerStr (stepPath i currentPath p))
      (ensureNode p i (stepPath i currentPath p) st))

/-- The builder's inner loop (`for (let i = 0; i < parts.length; i++)`). -/
def goParts (filePath : String) : BuildState → List String → Nat → String → BuildState
  | st, [], _, _ => st
  | st, p :: rest, i, currentPath =>
    goParts filePath (goStep filePath p rest.isEmpty i currentPath st) rest (i + 1)
      (stepPath i currentPath p)

/-- Per-tag processing: strip the `#` marker, resolve the canonical casing through
`caseMap` (first occurrence wins; the JS falsiness test `!canonicalPath` also
treats an empty stored casing as missing), then walk the `/`-segments. -/
def processTag (filePath : String) (st : BuildState) (tag : String) : BuildState :=
  let tagPath := stripHash tag
  let lowerPath := lowerStr tagPath
  match jsMapGet st.caseMap lowerPath with
  | some c =>
    if c.data.isEmpty then
      goParts filePath { st with caseMap := jsMapSet st.caseMap lowerPath tagPath }
        (splitSlash tagPath) 0 ""
    else goParts filePath st (splitSlash c) 0 ""
  | none =>
    goParts filePath { st with caseMap := jsMapSet st.caseMap lowerPath tagPath }
      (splitSlash tagPath) 0 ""

/-- Per-record processing: skip `tags: null` entirely; count `tags: []` as
untagged and skip; otherwise process each raw tag. -/
def processRecord (st : BuildState) (filePath : String) (data : FileData) : BuildState :=
  match data.tags with
  | none => st
  | some tags =>
    if tags.isEmpty then { st with untagged := st.untagged + 1 }
    else tags.foldl (fun s t => processTag filePath s t) st

/-- The builder's starting state: empty maps, `untagged = 0`. -/
def initialBuildState : BuildState :=
  ⟨[], [], 0, []⟩

/-- Embeds `buildTagTreeFromDatabase(db)` with the optional
`excludedFolderPatterns` argument absent: one pass over `db.getAllFiles()` — the
mirror's `(path, record)` entries in insertion order.  The whole builder state is
returned: the root map `tree` and `untagged` (the source's result object) together
with the heap `allNodes` through which node references resolve. -/
def buildTagTreeFromDatabase (files : List (String × FileData)) : BuildState :=
  files.foldl (fun st e => processRecord st e.1 e.2) initialBuildState

-- ### Aggregate counts and queries

/-- The recursive `collectFromChildren` helper inside `getTotalNoteCount`, with the
`allFiles` set threaded as an accumulator and the recursion depth bounded by
`fuel` (the source recursion is unbounded; trees the builder produces have
finite depth).  For each child: add its notes, then descend into it. -/
def collectFromChildren (h : Heap) : Nat → TagTreeNode → List String → List String
  | 0, _, acc => acc
  | fuel + 1, n, acc =>
    n.children.foldl (fun a ck =>
      let child := nodeOf h ck
      collectFromChildren h fuel child (child.notesWithTag.foldl jsSetAdd a)) acc

/-- Embeds `getTotalNoteCount(node)` — the computation body that the per-build
`WeakMap` memoises (the cache is cleared on every rebuild and stores exactly this
value per node object): the size of the deduplicated set of file paths collected
from the node and all its descendants. -/
def getTotalNoteCount (h : Heap) (fuel : Nat) (k : String) : Nat :=
  let n := nodeOf h k
  (collectFromChildren h fuel n (n.notesWithTag.foldl jsSetAdd [])).length

/-- One level of the recursive `searchNode` helper of `findTagNode`: scan the map
entries in order; on a key match return the node, otherwise search that node's
children through `deeper`, then continue with the remaining entries. -/
def searchNodeListAux (h : Heap) (deeper : List String → String → Option TagTreeNode) :
    List String → String → Option TagTreeNode
  | [], _ => none
  | k :: rest, target =>
    if k == target then some (nodeOf h k)
    else
      match deeper (nodeOf h k).children target with
      | some found => some found
      | none => searchNodeListAux h deeper rest target

/-- The recursive `searchNode` helper of `findTagNode`, with the recursion depth
bounded by `fuel` (the source recursion is unbounded; built trees have finite
depth). -/
def searchNode (h : Heap) : Nat → List String → String → Option TagTreeNode
  | 0, _, _ => none
  | fuel + 1, keys, target => searchNodeListAux h (searchNode h fuel) keys target

/-- Embeds `findTagNode(tree, tagPath)`: strip `#`, lowercase, search the root map
recursively.  A node is present in a tree exactly when this finds it. -/
def findTagNode (h : Heap) (fuel : Nat) (tree : List String) (tagPath : String) :
    Option TagTreeNode :=
  searchNode h fuel tree (lowerStr (stripHash tagPath))

-- ### Pattern filtering of the tree

/-- Embeds `filterTagTree(tree, includePatterns)`: with no patterns return the
tree unchanged; otherwise keep exactly the top-level entries for which some
prefix of the entry's own path (checked from the full path down to the first
segment) matches some parsed pattern. -/
def filterTagTree (rc : RegexEngine) (h : Heap) (tree : List String)
    (includePatterns : List String) : List String :=
  if includePatterns.length = 0 then tree
  else
    let patterns := parseTagPatterns (joinStrings "," includePatterns)
    tree.filter (fun key =>
      let pathParts := splitSlash (nodeOf h key).path
      (List.range pathParts.length).any (fun j =>
        let partialPath := joinStrings "/" (pathParts.take (pathParts.length - j))
        patterns.any (fun pat => matchesTagPattern rc partialPath pat)))

/-- Embeds `excludeFromTagTree(tree, excludePatterns)`: with no patterns return
the tree unchanged; otherwise keep exactly the top-level entries whose own path
matches no parsed pattern. -/
def excludeFromTagTree (rc : RegexEngine) (h : Heap) (tree : List String)
    (excludePatterns : List String) : List String :=
  if excludePatterns.length = 0 then tree
  else
    let patterns := parseTagPatterns (joinStrings "," excludePatterns)
    tree.filter (fun key =>
      !(patterns.any (fun pat => matchesTagPattern rc (nodeOf h key).path pat)))

-- ### Auxiliary definitions used by the statements

/-- A regex engine that rejects every body as malformed.  Wildcard patterns never
consult the engine, so on them every engine yields the same results. -/
def noRegex : RegexEngine := fun _ => none

/-- Example database: one file tagged `project`, another tagged `project/sub`. -/
def projectDb : List (String × FileData) :=
  [("f1.md", ⟨none, none, some ["project"], none⟩),
   ("f2.md", ⟨none, none, some ["project/sub"], none⟩)]

/-- The tree built from `projectDb`: root `project` with child `project/sub`. -/
def projectState : BuildState := buildTagTreeFromDatabase projectDb

/-- Example database: a single file tagged only `project/sub`. -/
def subOnlyDb : List (String × FileData) :=
  [("f.md", ⟨none, none, some ["project/sub"], none⟩)]

/-- The tree built from `subOnlyDb`. -/
def subOnlyState : BuildState := buildTagTreeFromDatabase subOnlyDb

/-- Specification-side description of the union of `notesWithTag` over a node and
its descendants up to depth `fuel`, as a finite set. -/
def subtreeNotes (h : Heap) : Nat → TagTreeNode → Finset String
  | 0, n => n.notesWithTag.toFinset
  | fuel + 1, n =>
    n.notesWithTag.toFinset ∪
      (n.children.map (fun ck => subtreeNotes h fuel (nodeOf h ck))).foldr (· ∪ ·) ∅

/-- The strict-descendant part of `subtreeNotes`, shaped after the accumulation
performed by `collectFromChildren`. -/
def descFin (h : Heap) : Nat → TagTreeNode → Finset String
  | 0, _ => ∅
  | fuel + 1, n =>
    (n.children.map (fun ck =>
      (nodeOf h ck).notesWithTag.toFinset ∪ descFin h fuel (nodeOf h ck))).foldr (· ∪ ·) ∅

/-- The largest key length present in a heap; any `fuel` of at least this bound
exhausts every descendant chain, because child keys strictly extend parent keys. -/
def maxKeyLen (h : Heap) : Nat :=
  (h.map (fun e => e.1.data.length)).foldr max 0

/-- Reachability from the root map by following children links, resolving child
keys through the heap. -/
inductive ReachableIn (h : Heap) (tree : List String) : String → Prop
  | root : ∀ k, k ∈ tree → ReachableIn h tree k
  | child : ∀ pk k, ReachableIn h tree pk → pk ∈ h.map Prod.fst →
      k ∈ (nodeOf h pk).children → ReachableIn h tree k

/-- The builder's structural invariant, established for every state
`buildTagTreeFromDatabase` can produce:
* `nodup`: `allNodes` has pairwise-distinct keys;
* `norm`: every node is stored under the lowercasing of its own `path`;
* `childMem`/`childShape`: child keys resolve in the heap and extend their
  parent's key by `"/"` plus one slash-free segment (the child is keyed by its
  case-normalized full path, immediately below the parent);
* `rootMem`: slash-free keys are registered in the root `tree` map;
* `linked`: every key containing a slash is recorded in the children map of the
  node at its immediate ancestor prefix;
* `treeSub`: root keys resolve in the heap. -/
structure BuildInv (st : BuildState) : Prop where
  nodup : (st.allNodes.map Prod.fst).Nodup
  norm : ∀ e ∈ st.allNodes, e.1 = lowerStr e.2.path
  childMem : ∀ e ∈ st.allNodes, ∀ ck ∈ e.2.children, ck ∈ st.allNodes.map Prod.fst
  childShape : ∀ e ∈ st.allNodes, ∀ ck ∈ e.2.children,
    ∃ seg, ck = e.1 ++ "/" ++ seg ∧ ('/' : Char) ∉ seg.data
  rootMem : ∀ e ∈ st.allNodes, ('/' : Char) ∉ e.1.data → e.1 ∈ st.tree
  linked : ∀ e ∈ st.allNodes, ('/' : Char) ∈ e.1.data →
    ∃ pk seg, e.1 = pk ++ "/" ++ seg ∧ ('/' : Char) ∉ seg.data ∧
      pk ∈ st.allNodes.map Prod.fst ∧ e.1 ∈ (nodeOf st.allNodes pk).children
  treeSub : ∀ k ∈ st.tree, k ∈ st.allNodes.map Prod.fst

/-- The builder invariant with the `linked` obligation waived for one
distinguished key: the state of the walk between creating a node and linking it
under its parent. -/
def InvExcept (st : BuildState) (key0 : String) : Prop :=
  (st.allNodes.map Prod.fst).Nodup ∧
  (∀ e ∈ st.allNodes, e.1 = lowerStr e.2.path) ∧
  (∀ e ∈ st.allNodes, ∀ ck ∈ e.2.children, ck ∈ st.allNodes.map Prod.fst) ∧
  (∀ e ∈ st.allNodes, ∀ ck ∈ e.2.children,
    ∃ seg, ck = e.1 ++ "/" ++ seg ∧ ('/' : Char) ∉ seg.data) ∧
  (∀ e ∈ st.allNodes, ('/' : Char) ∉ e.1.data → e.1 ∈ st.tree) ∧
  (∀ k ∈ st.tree, k ∈ st.allNodes.map Prod.fst) ∧
  (∀ e ∈ st.allNodes, e.1 ≠ key0 → ('/' : Char) ∈ e.1.data →
    ∃ pk seg, e.1 = pk ++ "/" ++ seg ∧ ('/' : Char) ∉ seg.data ∧
      pk ∈ st.allNodes.map Prod.fst ∧ e.1 ∈ (nodeOf st.allNodes pk).children)

-- ## Theorems

-- ### Basic association-list lemmas

theorem jsMapGet_eq_none_iff {α : Type} (m : List (String × α)) (k : String) :
    jsMapGet m k = none ↔ k ∉ m.map Prod.fst := by
  simp only [jsMapGet, Option.map_eq_none', List.find?_eq_none]
  constructor
  · intro h hmem
    obtain ⟨e, he, hk⟩ := List.mem_map.mp hmem
    have := h e he
    simp [hk] at this
  · intro h e he
    intro hk
    exact h (List.mem_map.mpr ⟨e, he, by simpa using hk⟩)

theorem jsMapSet_of_not_mem {α : Type} (m : List (String × α)) (k : String) (v : α)
    (h : k ∉ m.map Prod.fst) : jsMapSet m k v = m ++ [(k, v)] := by
  have hany : m.any (fun e => e.1 == k) = false := by
    simp only [List.any_eq_false]
    intro e he hk
    exact h (List.mem_map.mpr ⟨e, he, by simpa using hk⟩)
  simp [jsMapSet, hany]

theorem foldl_jsMapSet_nodup {α : Type} :
    ∀ (records : List (String × α)) (m : List (String × α)),
    (m.map Prod.fst ++ records.map Prod.fst).Nodup →
    records.foldl (fun acc e => jsMapSet acc e.1 e.2) m = m ++ records := by
  intro records
  induction records with
  | nil => intro m _; simp
  | cons r rs ih =>
    intro m h
    simp only [List.map_cons] at h
    have hr : r.1 ∉ m.map Prod.fst := by
      intro hmem
      exact (List.nodup_append.mp h).2.2 hmem (by simp)
    have hstep : jsMapSet m r.1 r.2 = m ++ [r] := by
      have := jsMapSet_of_not_mem m r.1 r.2 hr
      simpa using this
    simp only [List.foldl_cons, hstep]
    have h' : ((m ++ [r]).map Prod.fst ++ rs.map Prod.fst).Nodup := by
      simp only [List.map_append, List.map_cons, List.map_nil] at h ⊢
      simpa [List.append_assoc] using h
    rw [ih (m ++ [r]) h']
    simp

/-- **C5.** After `initialize(records)` with pairwise-distinct paths, the mirror's
`getAllFilesWithPaths()` returns exactly the input entries — same size, same
path-to-record associations — regardless of any previous contents, and `isReady()`
is `false` on a fresh cache and `true` after initialization. -/
theorem initialize_replaces_wholesale (c : MemoryFileCache)
    (records : List (String × FileData)) (h : (records.map Prod.fst).Nodup) :
    getAllFilesWithPaths (initializeCache c records) = records ∧
    (getAllFilesWithPaths (initializeCache c records)).length = records.length ∧
    (∀ p d, (p, d) ∈ getAllFilesWithPaths (initializeCache c records) ↔ (p, d) ∈ records) ∧
    isReady (initializeCache c records) = true ∧
    isReady emptyCache = false := by
  have hfold : records.foldl (fun acc e => jsMapSet acc e.1 e.2) [] = records := by
    have := foldl_jsMapSet_nodup records [] (by simpa using h)
    simpa using this
  refine ⟨?_, ?_, ?_, rfl, rfl⟩
  · simp [getAllFilesWithPaths, initializeCache, hfold]
  · simp [getAllFilesWithPaths, initializeCache, hfold]
  · intro p d; simp [getAllFilesWithPaths, initializeCache, hfold]

/-- Witness for C5: a concrete two-record initialization. -/
theorem initialize_replaces_wholesale_witness :
    getAllFilesWithPaths
      (initializeCache emptyCache
        [("a.md", ⟨some "p", none, some ["t"], none⟩), ("b.md", ⟨none, none, none, none⟩)]) =
      [("a.md", ⟨some "p", none, some ["t"], none⟩), ("b.md", ⟨none, none, none, none⟩)] :=
  (initialize_replaces_wholesale emptyCache
    [("a.md", ⟨some "p", none, some ["t"], none⟩), ("b.md", ⟨none, none, none, none⟩)]
    (by decide)).1

/-- **C7.** `clearAllFileContent("preview")` nulls exactly the `preview` field of
every record, in place: the result map is the input map with every record's
`preview` set to `none` and its `featureImage`, `tags` and `metadata` untouched;
the key set (and even the entry order) is unchanged, so no entry is removed. -/
theorem clearAllFileContent_preview_frame (c : MemoryFileCache) :
    (clearAllFileContent c ClearType.preview).memoryMap =
      c.memoryMap.map (fun e => (e.1, ⟨none, e.2.featureImage, e.2.tags, e.2.metadata⟩)) ∧
    (∀ p, hasFile (clearAllFileContent c ClearType.preview) p = hasFile c p) := by
  constructor
  · simp only [clearAllFileContent, clearFileData]
    apply List.map_congr_left
    intro e _
    simp
  · intro p
    simp only [hasFile, clearAllFileContent, List.any_map]
    congr 1

/-- **C9.** The partial-patch operations never create records: when `path` has no
record, `updateFileContent` is a complete no-op, and so is `batchUpdateFileContent`
when none of its paths has a record; in contrast `updateFile` upserts — after it,
the path always has a record. -/
theorem updateFileContent_missing_noop (c : MemoryFileCache) :
    (∀ p up, hasFile c p = false → updateFileContent c p up = c) ∧
    (∀ updates : List (String × ContentUpdates),
      (∀ e ∈ updates, hasFile c e.1 = false) → batchUpdateFileContent c updates = c) ∧
    (∀ p d, hasFile (updateFile c p d) p = true) := by
  have hnoop : ∀ p up, hasFile c p = false → updateFileContent c p up = c := by
    intro p up h
    have hnone : jsMapGet c.memoryMap p = none := by
      rw [jsMapGet_eq_none_iff]
      intro hmem
      rw [List.mem_map] at hmem
      obtain ⟨e, he, hk⟩ := hmem
      have : c.memoryMap.any (fun e => e.1 == p) = true :=
        List.any_eq_true.mpr ⟨e, he, by simp [hk]⟩
      rw [hasFile] at h
      simp [this] at h
    simp [updateFileContent, hnone]
  refine ⟨hnoop, ?_, ?_⟩
  · intro updates
    induction updates with
    | nil => intro _; rfl
    | cons u us ih =>
      intro h
      have h1 : hasFile c u.1 = false := h u (by simp)
      have : updateFileContent c u.1 u.2 = c := hnoop u.1 u.2 h1
      simp only [batchUpdateFileContent, List.foldl_cons, this]
      exact ih (fun e he => h e (by simp [he]))
  · intro p d
    simp only [hasFile, updateFile, jsMapSet]
    by_cases hmem : c.memoryMap.any (fun e => e.1 == p) = true
    · simp only [hmem, if_true]
      rw [List.any_eq_true] at hmem ⊢
      obtain ⟨e, he, hk⟩ := hmem
      refine ⟨(e.1, d), ?_, hk⟩
      rw [List.mem_map]
      exact ⟨e, he, by simp [hk]⟩
    · simp only [Bool.not_eq_true] at hmem
      simp [hmem]

/-- Witness for C9: on a one-record cache, patching a missing path is the identity,
a batch over missing paths is the identity, and `updateFile` creates the record. -/
theorem updateFileContent_missing_noop_witness :
    updateFileContent ⟨[("a.md", ⟨none, none, none, none⟩)], true⟩ "b.md" ⟨some "x", none, none⟩ =
      ⟨[("a.md", ⟨none, none, none, none⟩)], true⟩ ∧
    batchUpdateFileContent ⟨[("a.md", ⟨none, none, none, none⟩)], true⟩
      [("b.md", ⟨some "x", none, none⟩)] = ⟨[("a.md", ⟨none, none, none, none⟩)], true⟩ ∧
    hasFile (updateFile ⟨[("a.md", ⟨none, none, none, none⟩)], true⟩ "b.md" ⟨none, none, none, none⟩)
      "b.md" = true := by
  refine ⟨?_, ?_, ?_⟩
  · exact (updateFileContent_missing_noop ⟨[("a.md", ⟨none, none, none, none⟩)], true⟩).1
      "b.md" ⟨some "x", none, none⟩ (by decide)
  · exact (updateFileContent_missing_noop ⟨[("a.md", ⟨none, none, none, none⟩)], true⟩).2.1
      [("b.md", ⟨some "x", none, none⟩)] (by decide)
  · exact (updateFileContent_missing_noop ⟨[("a.md", ⟨none, none, none, none⟩)], true⟩).2.2
      "b.md" ⟨none, none, none, none⟩

-- ### C8: malformed delimited regex patterns are absorbed

/-- **C8.** For every regex engine, tag path and delimited pattern (wrapped in
`/…/` after `#`-stripping), `matchesTagPattern` is total on the regex branch:
when the body fails to compile (the thrown `SyntaxError`, modelled by the engine
returning `none`) the error is caught locally and the call returns `false`
(a non-match), and when the body compiles the call returns the matcher's verdict;
no error propagates to the caller in either case. -/
theorem matchesTagPattern_malformed_regex_no_raise (rc : RegexEngine) (tagPath pat : String)
    (hs : headIsSlash (stripHash pat) = true) (he : lastIsSlash (stripHash pat) = true) :
    (rc (String.mk (((stripHash pat).data.drop 1).dropLast)) = none →
      matchesTagPattern rc tagPath pat = false) ∧
    (∀ test, rc (String.mk (((stripHash pat).data.drop 1).dropLast)) = some test →
      matchesTagPattern rc tagPath pat = test (stripHash tagPath)) := by
  constructor
  · intro hnone
    rw [List.drop_one] at hnone
    simp [matchesTagPattern, hs, he, hnone]
  · intro test htest
    rw [List.drop_one] at htest
    simp [matchesTagPattern, hs, he, htest]

/-- Witness for C8: the malformed pattern `/[/` is treated as a non-match. -/
theorem matchesTagPattern_malformed_regex_no_raise_witness :
    matchesTagPattern noRegex "project/sub" "/[/" = false :=
  (matchesTagPattern_malformed_regex_no_raise noRegex "project/sub" "/[/"
    (by decide) (by decide)).1 rfl

-- ### C1: exclusion filters only top-level entries

/-- Counterexample to **C1** as stated: in the tree built from one file tagged
`project` and another tagged `project/sub`, the node `project/sub` is present
before exclusion, but `excludeFromTagTree(tree, ["project"])` returns the empty
tree — the node `project/sub` does *not* remain present in the result, because
exclusion filters only the top-level entries and dropping the root `project`
drops its entire subtree from the returned map. -/
theorem excludeFromTagTree_subtree_lost_counterexample :
    (findTagNode projectState.allNodes 10 projectState.tree "project/sub").isSome = true ∧
    excludeFromTagTree noRegex projectState.allNodes projectState.tree ["project"] = [] ∧
    findTagNode projectState.allNodes 10
      (excludeFromTagTree noRegex projectState.allNodes projectState.tree ["project"])
      "project/sub" = none := by
  decide

/-- **C1** (amended).  `excludeFromTagTree` filters only the top-level entries of
the given tree map: an entry is kept exactly when its node's own path matches no
parsed exclude pattern.  Descendant nodes are never individually inspected or
removed — in the example tree, excluding `["project/sub"]` keeps the root entry
`project` and leaves its child `project/sub` reachable even though that child's
path matches the pattern — but removing a root entry removes its entire subtree
from the result. -/
theorem excludeFromTagTree_checks_only_roots (rc : RegexEngine) (h : Heap)
    (tree pats : List String) (k : String) :
    (k ∈ excludeFromTagTree rc h tree pats ↔
      k ∈ tree ∧ ∀ pat ∈ parseTagPatterns (joinStrings "," pats),
        matchesTagPattern rc (nodeOf h k).path pat = false) ∧
    excludeFromTagTree noRegex projectState.allNodes projectState.tree ["project/sub"] =
      ["project"] ∧
    (findTagNode projectState.allNodes 10
      (excludeFromTagTree noRegex projectState.allNodes projectState.tree ["project/sub"])
      "project/sub").isSome = true := by
  refine ⟨?_, by decide, by decide⟩
  cases pats with
  | nil =>
    have hparse : parseTagPatterns (joinStrings "," ([] : List String)) = [] := rfl
    simp [excludeFromTagTree, hparse]
  | cons p ps =>
    rw [excludeFromTagTree]
    rw [if_neg (by simp)]
    simp only [List.mem_filter, Bool.not_eq_true', List.any_eq_false]
    constructor
    · rintro ⟨hk, hall⟩
      exact ⟨hk, fun pat hp => by simpa using hall pat hp⟩
    · rintro ⟨hk, hall⟩
      exact ⟨hk, fun pat hp => by simp [hall pat hp]⟩

-- ### C2: inclusion is prefix-inherited only through root entries

/-- Counterexample to **C2** as stated: in the tree built from a single file
tagged `project/sub`, the node `project/sub` is present and its own path matches
the include pattern `project/sub`, yet `filterTagTree(tree, ["project/sub"])`
returns the empty tree: a non-root node whose own path matches is not kept,
because filtering examines only the top-level entries (whose single-segment
paths have no matching prefix here). -/
theorem filterTagTree_own_match_insufficient_counterexample :
    matchesTagPattern noRegex (nodeOf subOnlyState.allNodes "project/sub").path
      "project/sub" = true ∧
    (findTagNode subOnlyState.allNodes 10 subOnlyState.tree "project/sub").isSome = true ∧
    filterTagTree noRegex subOnlyState.allNodes subOnlyState.tree ["project/sub"] = [] := by
  decide

/-- **C2** (amended).  With a non-empty pattern list, `filterTagTree` keeps a
top-level entry exactly when some non-empty prefix of that entry's own path
matches a parsed include pattern; descendants are retained exactly through their
kept root entry.  In particular the example holds: `["project*"]` keeps the root
`project`, and the node `project/sub` remains reachable in the result even though
no pattern matches `project/sub` itself. -/
theorem filterTagTree_prefix_inherited_via_roots (rc : RegexEngine) (h : Heap)
    (tree pats : List String) (k : String) :
    (k ∈ filterTagTree rc h tree pats ↔
      k ∈ tree ∧ (pats = [] ∨ ∃ i, 1 ≤ i ∧ i ≤ (splitSlash (nodeOf h k).path).length ∧
        ∃ pat ∈ parseTagPatterns (joinStrings "," pats),
          matchesTagPattern rc
            (joinStrings "/" ((splitSlash (nodeOf h k).path).take i)) pat = true)) ∧
    filterTagTree noRegex projectState.allNodes projectState.tree ["project*"] =
      ["project"] ∧
    (findTagNode projectState.allNodes 10
      (filterTagTree noRegex projectState.allNodes projectState.tree ["project*"])
      "project/sub").isSome = true := by
  refine ⟨?_, by decide, by decide⟩
  cases pats with
  | nil =>
    simp [filterTagTree]
  | cons p ps =>
    rw [filterTagTree]
    rw [if_neg (by simp)]
    simp only [List.mem_filter, List.any_eq_true, List.mem_range]
    constructor
    · rintro ⟨hk, j, hj, pat, hpat, hm⟩
      refine ⟨hk, Or.inr ⟨(splitSlash (nodeOf h k).path).length - j, by omega, by omega,
        pat, hpat, hm⟩⟩
    · rintro ⟨hk, hor⟩
      rcases hor with hnil | ⟨i, h1, h2, pat, hpat, hm⟩
      · exact absurd hnil (by simp)
      · refine ⟨hk, (splitSlash (nodeOf h k).path).length - i, by omega, pat, hpat, ?_⟩
        have hi : (splitSlash (nodeOf h k).path).length -
            ((splitSlash (nodeOf h k).path).length - i) = i := by omega
        rw [hi]
        exact hm

-- ### C6: the untagged counter

theorem ensureNode_untagged (p : String) (i : Nat) (cp' : String) (st : BuildState) :
    (ensureNode p i cp' st).untagged = st.untagged := by
  unfold ensureNode
  split <;> rfl

theorem attachNote_untagged (filePath : String) (isLast : Bool) (key : String)
    (st : BuildState) : (attachNote filePath isLast key st).untagged = st.untagged := by
  unfold attachNote
  split <;> rfl

theorem linkParent_untagged (i : Nat) (parentKey key : String) (st : BuildState) :
    (linkParent i parentKey key st).untagged = st.untagged := by
  unfold linkParent
  repeat' split
  all_goals rfl

theorem goStep_untagged (filePath p : String) (isLast : Bool) (i : Nat)
    (currentPath : String) (st : BuildState) :
    (goStep filePath p isLast i currentPath st).untagged = st.untagged := by
  unfold goStep
  rw [linkParent_untagged, attachNote_untagged, ensureNode_untagged]

theorem goParts_untagged (filePath : String) :
    ∀ (parts : List String) (st : BuildState) (i : Nat) (currentPath : String),
      (goParts filePath st parts i currentPath).untagged = st.untagged := by
  intro parts
  induction parts with
  | nil => intro st i cp; rfl
  | cons p rest ih =>
    intro st i cp
    rw [goParts, ih, goStep_untagged]

theorem processTag_untagged (filePath : String) (st : BuildState) (tag : String) :
    (processTag filePath st tag).untagged = st.untagged := by
  unfold processTag
  dsimp only
  split
  · split
    · rw [goParts_untagged]
    · rw [goParts_untagged]
  · rw [goParts_untagged]

theorem foldl_processTag_untagged (filePath : String) :
    ∀ (ts : List String) (st : BuildState),
      (ts.foldl (fun s t => processTag filePath s t) st).untagged = st.untagged := by
  intro ts
  induction ts with
  | nil => intro st; rfl
  | cons t ts ih =>
    intro st
    rw [List.foldl_cons, ih, processTag_untagged]

/-- **C6.** A record with `tags: null` is skipped entirely (the builder state is
untouched, so in particular `untagged` is not incremented); a record with
`tags: []` increments `untagged` by exactly one and contributes nothing else; and
the `untagged` count returned by a build equals the number of scanned records
whose tag field is the empty (non-null) sequence. -/
theorem untagged_counts_empty_tag_records :
    (∀ (st : BuildState) (p : String) (d : FileData), d.tags = none →
      processRecord st p d = st) ∧
    (∀ (st : BuildState) (p : String) (d : FileData), d.tags = some [] →
      processRecord st p d = { st with untagged := st.untagged + 1 }) ∧
    (∀ files : List (String × FileData),
      (buildTagTreeFromDatabase files).untagged =
        (files.filter (fun e => decide (e.2.tags = some []))).length) := by
  have hrec : ∀ (st : BuildState) (p : String) (d : FileData),
      (processRecord st p d).untagged =
        st.untagged + (if d.tags = some [] then 1 else 0) := by
    intro st p d
    cases htags : d.tags with
    | none => simp [processRecord, htags]
    | some l =>
      cases l with
      | nil => simp [processRecord, htags]
      | cons a as =>
        have h1 : processRecord st p d = (a :: as).foldl (fun s t => processTag p s t) st := by
          simp [processRecord, htags]
        rw [h1, foldl_processTag_untagged]
        simp
  refine ⟨?_, ?_, ?_⟩
  · intro st p d h
    simp [processRecord, h]
  · intro st p d h
    simp [processRecord, h]
  · intro files
    have main : ∀ (fs : List (String × FileData)) (st : BuildState),
        (fs.foldl (fun s e => processRecord s e.1 e.2) st).untagged =
          st.untagged + (fs.filter (fun e => decide (e.2.tags = some []))).length := by
      intro fs
      induction fs with
      | nil => intro st; simp
      | cons f fs ih =>
        intro st
        rw [List.foldl_cons, ih, hrec]
        by_cases h : f.2.tags = some []
        · simp [h, List.filter_cons]
          omega
        · simp [h, List.filter_cons]
    have := main files initialBuildState
    simpa [buildTagTreeFromDatabase, initialBuildState] using this

/-- Witness for C6: a null-tags record is skipped, an empty-tags record counts
one, and a three-record database (null, empty, tagged) reports `untagged = 1`. -/
theorem untagged_counts_empty_tag_records_witness :
    processRecord initialBuildState "n.md" ⟨none, none, none, none⟩ = initialBuildState ∧
    processRecord initialBuildState "e.md" ⟨none, none, some [], none⟩ =
      { initialBuildState with untagged := initialBuildState.untagged + 1 } ∧
    (buildTagTreeFromDatabase
      [("n.md", ⟨none, none, none, none⟩), ("e.md", ⟨none, none, some [], none⟩),
       ("t.md", ⟨none, none, some ["x"], none⟩)]).untagged = 1 := by
  refine ⟨?_, ?_, ?_⟩
  · exact untagged_counts_empty_tag_records.1 initialBuildState "n.md"
      ⟨none, none, none, none⟩ rfl
  · exact untagged_counts_empty_tag_records.2.1 initialBuildState "e.md"
      ⟨none, none, some [], none⟩ rfl
  · exact (untagged_counts_empty_tag_records.2.2
      [("n.md", ⟨none, none, none, none⟩), ("e.md", ⟨none, none, some [], none⟩),
       ("t.md", ⟨none, none, some ["x"], none⟩)]).trans (by decide)

-- ### C3: the aggregate count is the deduplicated subtree union

theorem jsSetAdd_toFinset (l : List String) (x : String) :
    (jsSetAdd l x).toFinset = insert x l.toFinset := by
  ext y
  by_cases h : x ∈ l
  · simp only [jsSetAdd, if_pos h, List.mem_toFinset, Finset.mem_insert]
    constructor
    · intro hy; exact Or.inr hy
    · rintro (rfl | hy)
      · exact h
      · exact hy
  · simp [jsSetAdd, if_neg h, or_comm]

theorem jsSetAdd_nodup (l : List String) (x : String) (h : l.Nodup) :
    (jsSetAdd l x).Nodup := by
  by_cases hx : x ∈ l
  · simpa [jsSetAdd, hx]
  · simp [jsSetAdd, hx, List.nodup_append, h]

theorem foldl_jsSetAdd_toFinset :
    ∀ (xs acc : List String), (xs.foldl jsSetAdd acc).toFinset = acc.toFinset ∪ xs.toFinset := by
  intro xs
  induction xs with
  | nil => intro acc; simp
  | cons x xs ih =>
    intro acc
    rw [List.foldl_cons, ih, jsSetAdd_toFinset]
    ext y
    simp

theorem foldl_jsSetAdd_nodup :
    ∀ (xs acc : List String), acc.Nodup → (xs.foldl jsSetAdd acc).Nodup := by
  intro xs
  induction xs with
  | nil => intro acc h; exact h
  | cons x xs ih => intro acc h; exact ih _ (jsSetAdd_nodup _ _ h)

theorem collectFromChildren_nodup (h : Heap) :
    ∀ (fuel : Nat) (n : TagTreeNode) (acc : List String), acc.Nodup →
      (collectFromChildren h fuel n acc).Nodup := by
  intro fuel
  induction fuel with
  | zero => intro n acc hacc; exact hacc
  | succ fuel ih =>
    intro n acc hacc
    rw [collectFromChildren]
    have aux : ∀ (cks : List String) (a : List String), a.Nodup →
        (cks.foldl (fun a ck => collectFromChildren h fuel (nodeOf h ck)
          ((nodeOf h ck).notesWithTag.foldl jsSetAdd a)) a).Nodup := by
      intro cks
      induction cks with
      | nil => intro a ha; exact ha
      | cons ck cks ihc =>
        intro a ha
        rw [List.foldl_cons]
        exact ihc _ (ih _ _ (foldl_jsSetAdd_nodup _ _ ha))
    exact aux _ _ hacc

theorem collectFromChildren_toFinset (h : Heap) :
    ∀ (fuel : Nat) (n : TagTreeNode) (acc : List String),
      (collectFromChildren h fuel n acc).toFinset = acc.toFinset ∪ descFin h fuel n := by
  intro fuel
  induction fuel with
  | zero => intro n acc; simp [collectFromChildren, descFin]
  | succ fuel ih =>
    intro n acc
    rw [collectFromChildren, descFin]
    have aux : ∀ (cks : List String) (a : List String),
        (cks.foldl (fun a ck => collectFromChildren h fuel (nodeOf h ck)
          ((nodeOf h ck).notesWithTag.foldl jsSetAdd a)) a).toFinset =
        a.toFinset ∪ (cks.map (fun ck =>
          (nodeOf h ck).notesWithTag.toFinset ∪ descFin h fuel (nodeOf h ck))).foldr
            (· ∪ ·) ∅ := by
      intro cks
      induction cks with
      | nil => intro a; simp
      | cons ck cks ihc =>
        intro a
        rw [List.foldl_cons, ihc, ih, foldl_jsSetAdd_toFinset, List.map_cons,
          List.foldr_cons]
        ext y
        simp
    exact aux _ _

theorem subtreeNotes_eq_notes_union_descFin (h : Heap) :
    ∀ (fuel : Nat) (n : TagTreeNode),
      subtreeNotes h fuel n = n.notesWithTag.toFinset ∪ descFin h fuel n := by
  intro fuel
  induction fuel with
  | zero => intro n; simp [subtreeNotes, descFin]
  | succ fuel ih =>
    intro n
    rw [subtreeNotes, descFin]
    have aux : ∀ (cks : List String),
        (cks.map (fun ck => subtreeNotes h fuel (nodeOf h ck))).foldr (· ∪ ·) ∅ =
        (cks.map (fun ck =>
          (nodeOf h ck).notesWithTag.toFinset ∪ descFin h fuel (nodeOf h ck))).foldr
            (· ∪ ·) ∅ := by
      intro cks
      induction cks with
      | nil => rfl
      | cons ck cks ihc =>
        rw [List.map_cons, List.map_cons, List.foldr_cons, List.foldr_cons, ihc, ih]
    rw [aux]

theorem getTotalNoteCount_eq_card (h : Heap) (fuel : Nat) (k : String) :
    getTotalNoteCount h fuel k = (subtreeNotes h fuel (nodeOf h k)).card := by
  rw [getTotalNoteCount]
  have hnodup : (collectFromChildren h fuel (nodeOf h k)
      ((nodeOf h k).notesWithTag.foldl jsSetAdd [])).Nodup :=
    collectFromChildren_nodup h fuel _ _ (foldl_jsSetAdd_nodup _ _ List.nodup_nil)
  have hfin : (collectFromChildren h fuel (nodeOf h k)
      ((nodeOf h k).notesWithTag.foldl jsSetAdd [])).toFinset =
      subtreeNotes h fuel (nodeOf h k) := by
    rw [collectFromChildren_toFinset, foldl_jsSetAdd_toFinset,
      subtreeNotes_eq_notes_union_descFin]
    simp
  rw [← hfin, List.toFinset_card_of_nodup hnodup]

-- ### Heap-operation toolkit for the builder invariant

theorem jsMapGet_cons {α : Type} (e : String × α) (m : List (String × α)) (k : String) :
    jsMapGet (e :: m) k = if e.1 = k then some e.2 else jsMapGet m k := by
  by_cases he : e.1 = k
  · simp [jsMapGet, List.find?_cons_of_pos, he]
  · rw [if_neg he]
    unfold jsMapGet
    rw [List.find?_cons_of_neg]
    simpa using he

theorem jsMapGet_isSome_of_mem {α : Type} (m : List (String × α)) (k : String)
    (h : k ∈ m.map Prod.fst) : ∃ v, jsMapGet m k = some v := by
  cases hm : jsMapGet m k with
  | none => exact absurd ((jsMapGet_eq_none_iff m k).mp hm) (by simpa using h)
  | some v => exact ⟨v, rfl⟩

theorem jsMapGet_mem {α : Type} (m : List (String × α)) (k : String) (v : α)
    (h : jsMapGet m k = some v) : (k, v) ∈ m ∧ k ∈ m.map Prod.fst := by
  unfold jsMapGet at h
  cases hf : m.find? (fun e => e.1 == k) with
  | none => rw [hf] at h; simp at h
  | some e =>
    rw [hf] at h
    simp only [Option.map_some', Option.some.injEq] at h
    have hmem := List.mem_of_find?_eq_some hf
    have hpred := List.find?_some hf
    simp only [beq_iff_eq] at hpred
    have he : e = (k, v) := by
      cases e
      simp only [Prod.mk.injEq]
      exact ⟨hpred, h⟩
    constructor
    · rwa [he] at hmem
    · exact List.mem_map.mpr ⟨e, hmem, hpred⟩

theorem jsMapGet_of_mem_nodup {α : Type} :
    ∀ (m : List (String × α)) (k : String) (v : α),
      (m.map Prod.fst).Nodup → (k, v) ∈ m → jsMapGet m k = some v := by
  intro m
  induction m with
  | nil => intro k v _ h; simp at h
  | cons e m ih =>
    intro k v hnodup h
    simp only [List.map_cons, List.nodup_cons] at hnodup
    rcases List.mem_cons.mp h with rfl | hmem
    · rw [jsMapGet_cons, if_pos rfl]
    · have hne : e.1 ≠ k := by
        intro he
        exact hnodup.1 (he ▸ List.mem_map.mpr ⟨(k, v), hmem, rfl⟩)
      rw [jsMapGet_cons, if_neg hne]
      exact ih k v hnodup.2 hmem

theorem jsMapGet_append_of_some {α : Type} (m m2 : List (String × α)) (k : String) (v : α)
    (h : jsMapGet m k = some v) : jsMapGet (m ++ m2) k = some v := by
  unfold jsMapGet at h ⊢
  rw [List.find?_append]
  cases hf : m.find? (fun e => e.1 == k) with
  | none => rw [hf] at h; simp at h
  | some e => rw [hf] at h; simp [h]

theorem jsMapGet_append_of_none {α : Type} (m m2 : List (String × α)) (k : String)
    (h : jsMapGet m k = none) : jsMapGet (m ++ m2) k = jsMapGet m2 k := by
  unfold jsMapGet at h ⊢
  rw [List.find?_append]
  cases hf : m.find? (fun e => e.1 == k) with
  | none => simp
  | some e => rw [hf] at h; simp at h

theorem heapModify_map_fst (h : Heap) (k : String) (f : TagTreeNode → TagTreeNode) :
    (heapModify h k f).map Prod.fst = h.map Prod.fst := by
  unfold heapModify
  rw [List.map_map]
  apply List.map_congr_left
  intro e _
  by_cases he : e.1 = k <;> simp [he]

theorem jsMapGet_heapModify (k k' : String) (f : TagTreeNode → TagTreeNode) :
    ∀ (h : Heap), jsMapGet (heapModify h k f) k' =
      if k' = k then (jsMapGet h k).map f else jsMapGet h k' := by
  intro h
  induction h with
  | nil => by_cases hk : k' = k <;> simp [heapModify, jsMapGet, hk]
  | cons e h ih =>
    have hmod : heapModify (e :: h) k f =
        (if e.1 == k then (e.1, f e.2) else e) :: heapModify h k f := by
      simp [heapModify]
    rw [hmod]
    by_cases he : e.1 = k <;> by_cases hk : k' = k <;>
      by_cases hek : e.1 = k' <;>
      simp_all [jsMapGet, List.find?_cons, heapModify]

theorem mem_heapModify_iff (h : Heap) (k : String) (f : TagTreeNode → TagTreeNode)
    (e' : String × TagTreeNode) :
    e' ∈ heapModify h k f ↔ ∃ e ∈ h, e' = if e.1 = k then (e.1, f e.2) else e := by
  unfold heapModify
  rw [List.mem_map]
  constructor
  · rintro ⟨e, he, rfl⟩
    exact ⟨e, he, by by_cases hek : e.1 = k <;> simp [hek]⟩
  · rintro ⟨e, he, rfl⟩
    exact ⟨e, he, by by_cases hek : e.1 = k <;> simp [hek]⟩

theorem nodeOf_heapModify_children_superset (h : Heap) (k pk : String)
    (f : TagTreeNode → TagTreeNode)
    (hgrow : ∀ n : TagTreeNode, n.children ⊆ (f n).children) :
    (nodeOf h pk).children ⊆ (nodeOf (heapModify h k f) pk).children := by
  simp only [nodeOf, jsMapGet_heapModify]
  by_cases hpk : pk = k
  · subst hpk
    cases hm : jsMapGet h pk with
    | none => simp [hm]
    | some n => simpa [hm] using hgrow n
  · simp [hpk]

-- ### Character and string facts for the builder invariant

theorem toNat_charOfNat_of_lt (n : Nat) (h1 : n < 0xd800) : (Char.ofNat n).toNat = n := by
  unfold Char.ofNat
  rw [dif_pos (Or.inl h1)]
  rfl

theorem jsLowerChar_eq_slash_iff (c : Char) : jsLowerChar c = '/' ↔ c = '/' := by
  unfold jsLowerChar
  split_ifs with h
  · constructor
    · intro habs
      exfalso
      have h1 : (Char.ofNat (c.toNat + 32)).toNat = c.toNat + 32 :=
        toNat_charOfNat_of_lt _ (by omega)
      have h2 : ('/' : Char).toNat = 47 := by decide
      rw [habs, h2] at h1
      omega
    · intro hc
      subst hc
      exact absurd h (by decide)
  · exact Iff.rfl

theorem string_data_append (a b : String) : (a ++ b).data = a.data ++ b.data := by
  cases a
  cases b
  rfl

theorem lowerStr_data (s : String) : (lowerStr s).data = s.data.map jsLowerChar := rfl

theorem lowerStr_append (a b : String) : lowerStr (a ++ b) = lowerStr a ++ lowerStr b := by
  show String.mk ((a ++ b).data.map jsLowerChar) = _
  rw [string_data_append, List.map_append]
  rfl

theorem lowerStr_slash : lowerStr "/" = "/" := by decide

theorem slash_mem_lowerStr (s : String) :
    ('/' : Char) ∈ (lowerStr s).data ↔ ('/' : Char) ∈ s.data := by
  rw [lowerStr_data]
  constructor
  · intro hm
    obtain ⟨c, hc, hlc⟩ := List.mem_map.mp hm
    rwa [← (jsLowerChar_eq_slash_iff c).mp hlc]
  · intro hm
    exact List.mem_map.mpr ⟨'/', hm, (jsLowerChar_eq_slash_iff '/').mpr rfl⟩

theorem slash_mem_append_slash (a b : String) :
    ('/' : Char) ∈ (a ++ "/" ++ b).data := by
  rw [string_data_append, string_data_append]
  have : ('/' : Char) ∈ ("/" : String).data := by decide
  simp [this]

theorem string_length_append (a b : String) :
    (a ++ b).data.length = a.data.length + b.data.length := by
  rw [string_data_append, List.length_append]

theorem splitCharAux_no_sep (sep : Char) :
    ∀ (cs acc : List Char), sep ∉ acc →
      ∀ seg ∈ splitCharAux sep cs acc, sep ∉ seg := by
  intro cs
  induction cs with
  | nil =>
    intro acc hacc seg hseg
    simp only [splitCharAux, List.mem_singleton] at hseg
    subst hseg
    intro hmem
    exact hacc (List.mem_reverse.mp hmem)
  | cons c cs ih =>
    intro acc hacc seg hseg
    rw [splitCharAux] at hseg
    by_cases hc : c = sep
    · rw [if_pos hc] at hseg
      rcases List.mem_cons.mp hseg with rfl | hseg'
      · intro hmem
        exact hacc (List.mem_reverse.mp hmem)
      · exact ih [] (by simp) seg hseg'
    · rw [if_neg hc] at hseg
      refine ih (c :: acc) ?_ seg hseg
      intro hmem
      rcases List.mem_cons.mp hmem with h1 | h2
      · exact hc h1.symm
      · exact hacc h2

theorem splitSlash_no_slash (s : String) :
    ∀ seg ∈ splitSlash s, ('/' : Char) ∉ seg.data := by
  intro seg hseg
  obtain ⟨l, hl, rfl⟩ := List.mem_map.mp hseg
  exact splitCharAux_no_sep '/' s.data [] (by simp) l hl

theorem jsSetAdd_subset (l : List String) (x : String) : l ⊆ jsSetAdd l x := by
  intro a ha
  by_cases h : x ∈ l <;> simp [jsSetAdd, h, ha]

theorem mem_jsSetAdd_self (l : List String) (x : String) : x ∈ jsSetAdd l x := by
  by_cases h : x ∈ l <;> simp [jsSetAdd, h]

theorem nodeOf_of_mem_nodup (h : Heap) (k : String) (n : TagTreeNode)
    (hnodup : (h.map Prod.fst).Nodup) (hm : (k, n) ∈ h) : nodeOf h k = n := by
  rw [nodeOf, jsMapGet_of_mem_nodup h k n hnodup hm]
  rfl

theorem nodeOf_append_of_mem (h h2 : Heap) (k : String)
    (hk : k ∈ h.map Prod.fst) : nodeOf (h ++ h2) k = nodeOf h k := by
  obtain ⟨v, hv⟩ := jsMapGet_isSome_of_mem h k hk
  rw [nodeOf, nodeOf, hv, jsMapGet_append_of_some _ _ _ _ hv]

theorem ensureNode_of_found (p : String) (i : Nat) (cp' : String) (st : BuildState)
    (n : TagTreeNode) (hm : jsMapGet st.allNodes (lowerStr cp') = some n) :
    ensureNode p i cp' st = st := by
  unfold ensureNode
  rw [hm]

theorem ensureNode_of_missing (p : String) (i : Nat) (cp' : String) (st : BuildState)
    (hm : jsMapGet st.allNodes (lowerStr cp') = none) :
    ensureNode p i cp' st =
      { st with
        allNodes := st.allNodes ++ [(lowerStr cp', ⟨p, cp', [], []⟩)]
        tree := if i = 0 then jsSetAdd st.tree (lowerStr cp') else st.tree } := by
  unfold ensureNode
  rw [hm, jsMapSet_of_not_mem _ _ _ ((jsMapGet_eq_none_iff _ _).mp hm)]

theorem buildInv_invExcept (st : BuildState) (key0 : String) (hinv : BuildInv st) :
    InvExcept st key0 :=
  ⟨hinv.nodup, hinv.norm, hinv.childMem, hinv.childShape, hinv.rootMem, hinv.treeSub,
    fun e he _ hs => hinv.linked e he hs⟩

theorem ensureNode_invExcept (p : String) (i : Nat) (cp' : String) (st : BuildState)
    (hinv : BuildInv st)
    (hslash : i ≠ 0 → ('/' : Char) ∈ (lowerStr cp').data) :
    InvExcept (ensureNode p i cp' st) (lowerStr cp') ∧
    lowerStr cp' ∈ (ensureNode p i cp' st).allNodes.map Prod.fst ∧
    (∀ k, k ∈ st.allNodes.map Prod.fst → k ∈ (ensureNode p i cp' st).allNodes.map Prod.fst) ∧
    (∀ k, k ∈ st.tree → k ∈ (ensureNode p i cp' st).tree) ∧
    (∀ pk, pk ∈ st.allNodes.map Prod.fst →
      nodeOf (ensureNode p i cp' st).allNodes pk = nodeOf st.allNodes pk) := by
  cases hm : jsMapGet st.allNodes (lowerStr cp') with
  | some n0 =>
    rw [ensureNode_of_found p i cp' st n0 hm]
    exact ⟨buildInv_invExcept st _ hinv, (jsMapGet_mem _ _ _ hm).2,
      fun k hk => hk, fun k hk => hk, fun pk _ => rfl⟩
  | none =>
    rw [ensureNode_of_missing p i cp' st hm]
    have hnotmem : lowerStr cp' ∉ st.allNodes.map Prod.fst :=
      (jsMapGet_eq_none_iff _ _).mp hm
    have hkeys : ({ st with
        allNodes := st.allNodes ++ [(lowerStr cp', ⟨p, cp', [], []⟩)],
        tree := if i = 0 then jsSetAdd st.tree (lowerStr cp') else st.tree } :
          BuildState).allNodes.map Prod.fst = st.allNodes.map Prod.fst ++ [lowerStr cp'] := by
      simp
    have hmemkeys : ∀ k, k ∈ st.allNodes.map Prod.fst →
        k ∈ st.allNodes.map Prod.fst ++ [lowerStr cp'] := by
      intro k hk
      exact List.mem_append_left _ hk
    have hmemkeys2 : ∀ k, k ∈ st.allNodes.map Prod.fst →
        k ∈ (st.allNodes ++ [(lowerStr cp', (⟨p, cp', [], []⟩ : TagTreeNode))]).map Prod.fst := by
      intro k hk
      rw [List.map_append]
      exact List.mem_append_left _ hk
    have hnodeOf : ∀ pk, pk ∈ st.allNodes.map Prod.fst →
        nodeOf (st.allNodes ++ [(lowerStr cp', ⟨p, cp', [], []⟩)]) pk = nodeOf st.allNodes pk :=
      fun pk hpk => nodeOf_append_of_mem _ _ pk hpk
    refine ⟨⟨?_, ?_, ?_, ?_, ?_, ?_, ?_⟩, ?_, ?_, ?_, ?_⟩
    · rw [hkeys]
      simp [List.nodup_append, hinv.nodup, hnotmem]
    · intro e he
      rcases List.mem_append.mp he with he' | he'
      · exact hinv.norm e he'
      · simp only [List.mem_singleton] at he'
        subst he'
        rfl
    · intro e he ck hck
      rw [hkeys]
      rcases List.mem_append.mp he with he' | he'
      · exact hmemkeys ck (hinv.childMem e he' ck hck)
      · simp only [List.mem_singleton] at he'
        subst he'
        simp at hck
    · intro e he ck hck
      rcases List.mem_append.mp he with he' | he'
      · exact hinv.childShape e he' ck hck
      · simp only [List.mem_singleton] at he'
        subst he'
        simp at hck
    · intro e he hs
      rcases List.mem_append.mp he with he' | he'
      · have := hinv.rootMem e he' hs
        by_cases hi : i = 0
        · simp only [hi, if_pos rfl]
          exact jsSetAdd_subset _ _ this
        · simp only [if_neg hi]
          exact this
      · simp only [List.mem_singleton] at he'
        subst he'
        by_cases hi : i = 0
        · simp only [hi, if_pos rfl]
          exact mem_jsSetAdd_self _ _
        · exact absurd (hslash hi) hs
    · intro k hk
      rw [hkeys]
      by_cases hi : i = 0
      · rw [if_pos hi] at hk
        rcases (by
          by_cases hx : lowerStr cp' ∈ st.tree
          · rw [jsSetAdd, if_pos hx] at hk
            exact Or.inl hk
          · rw [jsSetAdd, if_neg hx] at hk
            exact List.mem_append.mp hk : k ∈ st.tree ∨ k ∈ [lowerStr cp']) with h1 | h1
        · exact hmemkeys k (hinv.treeSub k h1)
        · simp only [List.mem_singleton] at h1
          subst h1
          simp
      · rw [if_neg hi] at hk
        exact hmemkeys k (hinv.treeSub k hk)
    · intro e he hne hs
      rcases List.mem_append.mp he with he' | he'
      · obtain ⟨pk, seg, hdec, hsegns, hpkmem, hlink⟩ := hinv.linked e he' hs
        exact ⟨pk, seg, hdec, hsegns, hmemkeys2 pk hpkmem, by rw [hnodeOf pk hpkmem]; exact hlink⟩
      · simp only [List.mem_singleton] at he'
        subst he'
        exact absurd rfl hne
    · rw [hkeys]
      simp
    · exact hmemkeys2
    · intro k hk
      by_cases hi : i = 0
      · simp only [hi, if_pos rfl]
        exact jsSetAdd_subset _ _ hk
      · simpa [if_neg hi] using hk
    · exact hnodeOf

theorem invExcept_heapModify_pc (st : BuildState) (k0 key0 : String)
    (f : TagTreeNode → TagTreeNode)
    (hpath : ∀ n, (f n).path = n.path) (hchildren : ∀ n, (f n).children = n.children)
    (h : InvExcept st key0) :
    InvExcept { st with allNodes := heapModify st.allNodes k0 f } key0 := by
  obtain ⟨hnodup, hnorm, hcm, hcs, hroot, hsub, hlink⟩ := h
  have hkeys : (heapModify st.allNodes k0 f).map Prod.fst = st.allNodes.map Prod.fst :=
    heapModify_map_fst _ _ _
  have hchildOf : ∀ pk, (nodeOf (heapModify st.allNodes k0 f) pk).children =
      (nodeOf st.allNodes pk).children := by
    intro pk
    simp only [nodeOf, jsMapGet_heapModify]
    by_cases hpk : pk = k0
    · subst hpk
      cases hm : jsMapGet st.allNodes pk with
      | none => simp [hm]
      | some n => simp [hm, hchildren n]
    · simp [hpk]
  refine ⟨by rwa [hkeys], ?_, ?_, ?_, ?_, by simpa [hkeys] using hsub, ?_⟩
  · intro e he
    obtain ⟨e', he', rfl⟩ := (mem_heapModify_iff _ _ _ _).mp he
    by_cases hek : e'.1 = k0
    · rw [if_pos hek]
      show e'.1 = lowerStr (f e'.2).path
      rw [hpath]
      exact hnorm e' he'
    · rw [if_neg hek]
      exact hnorm e' he'
  · intro e he ck hck
    rw [hkeys]
    obtain ⟨e', he', rfl⟩ := (mem_heapModify_iff _ _ _ _).mp he
    by_cases hek : e'.1 = k0
    · rw [if_pos hek] at hck
      simp only [hchildren] at hck
      exact hcm e' he' ck hck
    · rw [if_neg hek] at hck
      exact hcm e' he' ck hck
  · intro e he ck hck
    obtain ⟨e', he', rfl⟩ := (mem_heapModify_iff _ _ _ _).mp he
    by_cases hek : e'.1 = k0
    · rw [if_pos hek] at hck ⊢
      simp only [hchildren] at hck
      show ∃ seg, ck = e'.1 ++ "/" ++ seg ∧ ('/' : Char) ∉ seg.data
      exact hcs e' he' ck hck
    · rw [if_neg hek] at hck ⊢
      exact hcs e' he' ck hck
  · intro e he hs
    obtain ⟨e', he', rfl⟩ := (mem_heapModify_iff _ _ _ _).mp he
    by_cases hek : e'.1 = k0
    · rw [if_pos hek] at hs ⊢
      exact hroot e' he' hs
    · rw [if_neg hek] at hs ⊢
      exact hroot e' he' hs
  · intro e he hne hs
    obtain ⟨e', he', rfl⟩ := (mem_heapModify_iff _ _ _ _).mp he
    by_cases hek : e'.1 = k0
    · rw [if_pos hek] at hne hs ⊢
      obtain ⟨pk, seg, hdec, hns, hpm, hl⟩ := hlink e' he' hne hs
      exact ⟨pk, seg, hdec, hns, by rwa [hkeys], by rw [hchildOf]; exact hl⟩
    · rw [if_neg hek] at hne hs ⊢
      obtain ⟨pk, seg, hdec, hns, hpm, hl⟩ := hlink e' he' hne hs
      exact ⟨pk, seg, hdec, hns, by rwa [hkeys], by rw [hchildOf]; exact hl⟩

theorem attachNote_invExcept (filePath : String) (isLast : Bool) (key key0 : String)
    (st : BuildState) (h : InvExcept st key0) :
    InvExcept (attachNote filePath isLast key st) key0 := by
  cases isLast with
  | false => exact h
  | true =>
    exact invExcept_heapModify_pc st key key0 _ (fun n => rfl) (fun n => rfl) h

theorem attachNote_allNodes_fst (filePath : String) (isLast : Bool) (key : String)
    (st : BuildState) :
    (attachNote filePath isLast key st).allNodes.map Prod.fst = st.allNodes.map Prod.fst := by
  cases isLast with
  | false => rfl
  | true =>
    unfold attachNote
    rw [if_pos rfl]
    dsimp only
    exact heapModify_map_fst _ _ _

theorem attachNote_tree (filePath : String) (isLast : Bool) (key : String)
    (st : BuildState) : (attachNote filePath isLast key st).tree = st.tree := by
  cases isLast <;> rfl

theorem linkParent_buildInv (i : Nat) (pkey key seg : String) (st : BuildState)
    (h : InvExcept st key)
    (hkeymem : key ∈ st.allNodes.map Prod.fst)
    (hzero : i = 0 → ('/' : Char) ∉ key.data)
    (hdec : i ≠ 0 → key = pkey ++ "/" ++ seg ∧ ('/' : Char) ∉ seg.data ∧
      pkey ∈ st.allNodes.map Prod.fst) :
    BuildInv (linkParent i pkey key st) ∧
    key ∈ (linkParent i pkey key st).allNodes.map Prod.fst := by
  obtain ⟨hnodup, hnorm, hcm, hcs, hroot, hsub, hlink⟩ := h
  by_cases hi : i = 0
  · have hid : linkParent i pkey key st = st := by
      unfold linkParent
      rw [if_neg (fun hn => hn hi)]
    rw [hid]
    refine ⟨⟨hnodup, hnorm, hcm, hcs, hroot, ?_, hsub⟩, hkeymem⟩
    intro e he hs
    by_cases hek : e.1 = key
    · rw [hek] at hs
      exact absurd hs (hzero hi)
    · exact hlink e he hek hs
  · obtain ⟨hkeyeq, hsegns, hpkmem⟩ := hdec hi
    obtain ⟨pnode, hpn⟩ := jsMapGet_isSome_of_mem st.allNodes pkey hpkmem
    have hpnodeOf : nodeOf st.allNodes pkey = pnode := by
      rw [nodeOf, hpn]
      rfl
    unfold linkParent
    rw [if_pos hi, hpn]
    dsimp only
    by_cases hmem : key ∈ pnode.children
    · rw [if_pos hmem]
      refine ⟨⟨hnodup, hnorm, hcm, hcs, hroot, ?_, hsub⟩, hkeymem⟩
      intro e he hs
      by_cases hek : e.1 = key
      · refine ⟨pkey, seg, by rw [hek, hkeyeq], hsegns, hpkmem, ?_⟩
        rw [hek, hpnodeOf]
        exact hmem
      · exact hlink e he hek hs
    · rw [if_neg hmem]
      have hkeys : (heapModify st.allNodes pkey
          (fun n => { n with children := n.children ++ [key] })).map Prod.fst =
          st.allNodes.map Prod.fst := heapModify_map_fst _ _ _
      have hgrow : ∀ n : TagTreeNode,
          n.children ⊆ ({ n with children := n.children ++ [key] } : TagTreeNode).children := by
        intro n c hc
        exact List.mem_append_left _ hc
      have hchildsup : ∀ pk, (nodeOf st.allNodes pk).children ⊆
          (nodeOf (heapModify st.allNodes pkey
            (fun n => { n with children := n.children ++ [key] })) pk).children :=
        fun pk => nodeOf_heapModify_children_superset _ _ _ _ hgrow
      refine ⟨⟨?_, ?_, ?_, ?_, ?_, ?_, ?_⟩, ?_⟩
      · dsimp only
        rwa [hkeys]
      · dsimp only
        intro e he
        obtain ⟨e', he', rfl⟩ := (mem_heapModify_iff _ _ _ _).mp he
        by_cases hek : e'.1 = pkey
        · rw [if_pos hek]
          exact hnorm e' he'
        · rw [if_neg hek]
          exact hnorm e' he'
      · dsimp only
        intro e he ck hck
        rw [hkeys]
        obtain ⟨e', he', rfl⟩ := (mem_heapModify_iff _ _ _ _).mp he
        by_cases hek : e'.1 = pkey
        · rw [if_pos hek] at hck
          simp only at hck
          rcases List.mem_append.mp hck with hold | hnew
          · exact hcm e' he' ck hold
          · simp only [List.mem_singleton] at hnew
            subst hnew
            exact hkeymem
        · rw [if_neg hek] at hck
          exact hcm e' he' ck hck
      · dsimp only
        intro e he ck hck
        obtain ⟨e', he', rfl⟩ := (mem_heapModify_iff _ _ _ _).mp he
        by_cases hek : e'.1 = pkey
        · rw [if_pos hek] at hck ⊢
          simp only at hck
          show ∃ s, ck = e'.1 ++ "/" ++ s ∧ ('/' : Char) ∉ s.data
          rcases List.mem_append.mp hck with hold | hnew
          · exact hcs e' he' ck hold
          · simp only [List.mem_singleton] at hnew
            subst hnew
            exact ⟨seg, by rw [hek, hkeyeq], hsegns⟩
        · rw [if_neg hek] at hck ⊢
          exact hcs e' he' ck hck
      · dsimp only
        intro e he hs
        obtain ⟨e', he', rfl⟩ := (mem_heapModify_iff _ _ _ _).mp he
        by_cases hek : e'.1 = pkey
        · rw [if_pos hek] at hs ⊢
          exact hroot e' he' hs
        · rw [if_neg hek] at hs ⊢
          exact hroot e' he' hs
      · dsimp only
        intro e he hs
        obtain ⟨e', he', rfl⟩ := (mem_heapModify_iff _ _ _ _).mp he
        have hlinknew : key ∈ (nodeOf (heapModify st.allNodes pkey
            (fun n => { n with children := n.children ++ [key] })) pkey).children := by
          simp only [nodeOf, jsMapGet_heapModify]
          simp [hpn]
        by_cases hek : e'.1 = pkey
        · rw [if_pos hek] at hs ⊢
          by_cases hek' : e'.1 = key
          · exfalso
            have hpk_eq : pkey = key := by rw [← hek, hek']
            have hlen : key.data.length = pkey.data.length + 1 + seg.data.length := by
              rw [hkeyeq, string_length_append, string_length_append]
              have h1 : ("/" : String).data.length = 1 := by decide
              omega
            rw [hpk_eq] at hlen
            omega
          · obtain ⟨pk, s, hd, hns, hpm, hl⟩ := hlink e' he' hek' hs
            exact ⟨pk, s, hd, hns, by rwa [hkeys], hchildsup pk hl⟩
        · rw [if_neg hek] at hs ⊢
          by_cases hek' : e'.1 = key
          · refine ⟨pkey, seg, by rw [hek', hkeyeq], hsegns, by rwa [hkeys], ?_⟩
            rw [hek']
            exact hlinknew
          · obtain ⟨pk, s, hd, hns, hpm, hl⟩ := hlink e' he' hek' hs
            exact ⟨pk, s, hd, hns, by rwa [hkeys], hchildsup pk hl⟩
      · dsimp only
        intro k hk
        rw [hkeys]
        exact hsub k hk
      · dsimp only
        rwa [hkeys]

theorem goStep_inv (filePath p : String) (isLast : Bool) (i : Nat) (currentPath : String)
    (st : BuildState) (hinv : BuildInv st) (hp : ('/' : Char) ∉ p.data)
    (hw : i ≠ 0 → lowerStr currentPath ∈ st.allNodes.map Prod.fst) :
    BuildInv (goStep filePath p isLast i currentPath st) ∧
    lowerStr (stepPath i currentPath p) ∈
      (goStep filePath p isLast i currentPath st).allNodes.map Prod.fst := by
  have hlp_noslash : ('/' : Char) ∉ (lowerStr p).data :=
    fun hm => hp ((slash_mem_lowerStr p).mp hm)
  have hkey_shape : ∀ _ : i ≠ 0,
      lowerStr (stepPath i currentPath p) = lowerStr currentPath ++ "/" ++ lowerStr p := by
    intro hi
    rw [stepPath, if_neg hi, lowerStr_append, lowerStr_append, lowerStr_slash]
  have hkey_zero : i = 0 → lowerStr (stepPath i currentPath p) = lowerStr p := by
    intro hi
    rw [stepPath, if_pos hi]
  have hslash : i ≠ 0 → ('/' : Char) ∈ (lowerStr (stepPath i currentPath p)).data := by
    intro hi
    rw [hkey_shape hi]
    exact slash_mem_append_slash _ _
  have hzero : i = 0 → ('/' : Char) ∉ (lowerStr (stepPath i currentPath p)).data := by
    intro hi
    rw [hkey_zero hi]
    exact hlp_noslash
  obtain ⟨hex, hkeymem, hkeysub, htreesub, hnodeOfpres⟩ :=
    ensureNode_invExcept p i (stepPath i currentPath p) st hinv hslash
  have hex2 : InvExcept (attachNote filePath isLast (lowerStr (stepPath i currentPath p))
      (ensureNode p i (stepPath i currentPath p) st)) (lowerStr (stepPath i currentPath p)) :=
    attachNote_invExcept _ _ _ _ _ hex
  have hkeymem2 : lowerStr (stepPath i currentPath p) ∈
      (attachNote filePath isLast (lowerStr (stepPath i currentPath p))
        (ensureNode p i (stepPath i currentPath p) st)).allNodes.map Prod.fst := by
    rw [attachNote_allNodes_fst]
    exact hkeymem
  have hpkeymem2 : i ≠ 0 → lowerStr currentPath ∈
      (attachNote filePath isLast (lowerStr (stepPath i currentPath p))
        (ensureNode p i (stepPath i currentPath p) st)).allNodes.map Prod.fst := by
    intro hi
    rw [attachNote_allNodes_fst]
    exact hkeysub _ (hw hi)
  unfold goStep
  exact linkParent_buildInv i (lowerStr currentPath) (lowerStr (stepPath i currentPath p))
    (lowerStr p) _ hex2 hkeymem2 hzero
    (fun hi => ⟨hkey_shape hi, hlp_noslash, hpkeymem2 hi⟩)

theorem goParts_inv (filePath : String) :
    ∀ (parts : List String) (st : BuildState) (i : Nat) (currentPath : String),
      BuildInv st → (∀ q ∈ parts, ('/' : Char) ∉ q.data) →
      (i ≠ 0 → lowerStr currentPath ∈ st.allNodes.map Prod.fst) →
      BuildInv (goParts filePath st parts i currentPath) := by
  intro parts
  induction parts with
  | nil => intro st i cp hinv _ _; exact hinv
  | cons p rest ih =>
    intro st i cp hinv hps hw
    rw [goParts]
    obtain ⟨hinv', hmem'⟩ := goStep_inv filePath p rest.isEmpty i cp st hinv
      (hps p (by simp)) hw
    exact ih _ (i + 1) (stepPath i cp p) hinv'
      (fun q hq => hps q (by simp [hq])) (fun _ => hmem')

theorem buildInv_caseMap (st : BuildState) (m : List (String × String))
    (h : BuildInv st) : BuildInv { st with caseMap := m } :=
  ⟨h.nodup, h.norm, h.childMem, h.childShape, h.rootMem, h.linked, h.treeSub⟩

theorem processTag_inv (filePath : String) (st : BuildState) (tag : String)
    (hinv : BuildInv st) : BuildInv (processTag filePath st tag) := by
  unfold processTag
  dsimp only
  cases hm : jsMapGet st.caseMap (lowerStr (stripHash tag)) with
  | some c =>
    dsimp only
    by_cases hc : c.data.isEmpty
    · rw [if_pos hc]
      exact goParts_inv filePath _ _ 0 "" (buildInv_caseMap st _ hinv)
        (splitSlash_no_slash _) (fun h => absurd rfl h)
    · rw [if_neg hc]
      exact goParts_inv filePath _ _ 0 "" hinv
        (splitSlash_no_slash _) (fun h => absurd rfl h)
  | none =>
    dsimp only
    exact goParts_inv filePath _ _ 0 "" (buildInv_caseMap st _ hinv)
      (splitSlash_no_slash _) (fun h => absurd rfl h)

theorem processRecord_inv (st : BuildState) (filePath : String) (d : FileData)
    (hinv : BuildInv st) : BuildInv (processRecord st filePath d) := by
  unfold processRecord
  cases d.tags with
  | none => exact hinv
  | some tags =>
    dsimp only
    by_cases ht : tags.isEmpty
    · rw [if_pos ht]
      exact ⟨hinv.nodup, hinv.norm, hinv.childMem, hinv.childShape, hinv.rootMem,
        hinv.linked, hinv.treeSub⟩
    · rw [if_neg ht]
      have : ∀ (ts : List String) (s : BuildState), BuildInv s →
          BuildInv (ts.foldl (fun s t => processTag filePath s t) s) := by
        intro ts
        induction ts with
        | nil => intro s hs; exact hs
        | cons t ts iht =>
          intro s hs
          rw [List.foldl_cons]
          exact iht _ (processTag_inv filePath s t hs)
      exact this tags st hinv

theorem buildInv_initial : BuildInv initialBuildState := by
  refine ⟨?_, ?_, ?_, ?_, ?_, ?_, ?_⟩ <;> simp [initialBuildState]

theorem buildTagTree_inv (files : List (String × FileData)) :
    BuildInv (buildTagTreeFromDatabase files) := by
  unfold buildTagTreeFromDatabase
  have : ∀ (fs : List (String × FileData)) (st : BuildState), BuildInv st →
      BuildInv (fs.foldl (fun s e => processRecord s e.1 e.2) st) := by
    intro fs
    induction fs with
    | nil => intro st hst; exact hst
    | cons f fs ih =>
      intro st hst
      rw [List.foldl_cons]
      exact ih _ (processRecord_inv st f.1 f.2 hst)
  exact this files initialBuildState buildInv_initial

theorem keyLen_le_maxKeyLen (h : Heap) (k : String) (hk : k ∈ h.map Prod.fst) :
    k.data.length ≤ maxKeyLen h := by
  unfold maxKeyLen
  induction h with
  | nil => simp at hk
  | cons e t ih =>
    simp only [List.map_cons, List.mem_cons] at hk
    simp only [List.map_cons, List.foldr_cons]
    rcases hk with hk1 | h1
    · rw [hk1]
      exact Nat.le_max_left _ _
    · exact Nat.le_trans (ih h1) (Nat.le_max_right _ _)

theorem subtreeNotes_stable (h : Heap)
    (hcm : ∀ e ∈ h, ∀ ck ∈ e.2.children, ck ∈ h.map Prod.fst)
    (hcs : ∀ e ∈ h, ∀ ck ∈ e.2.children,
      ∃ seg, ck = e.1 ++ "/" ++ seg ∧ ('/' : Char) ∉ seg.data) :
    ∀ (fuel : Nat) (k : String) (n : TagTreeNode), (k, n) ∈ h →
      maxKeyLen h ≤ fuel + k.data.length →
      subtreeNotes h (fuel + 1) n = subtreeNotes h fuel n := by
  intro fuel
  induction fuel with
  | zero =>
    intro k n hm hb
    have hchildnil : n.children = [] := by
      cases hc : n.children with
      | nil => rfl
      | cons c cs =>
        exfalso
        have hcmem : c ∈ n.children := by rw [hc]; simp
        have h1 := hcm (k, n) hm c hcmem
        obtain ⟨seg, hdec, _⟩ := hcs (k, n) hm c hcmem
        have hdec' : c = k ++ "/" ++ seg := hdec
        have h2 : c.data.length = k.data.length + 1 + seg.data.length := by
          rw [hdec', string_length_append, string_length_append]
          have : ("/" : String).data.length = 1 := by decide
          omega
        have h3 := keyLen_le_maxKeyLen h c h1
        omega
    simp only [subtreeNotes, hchildnil, List.map_nil, List.foldr_nil]
    simp
  | succ fuel ih =>
    intro k n hm hb
    show subtreeNotes h (fuel + 1 + 1) n = subtreeNotes h (fuel + 1) n
    simp only [subtreeNotes]
    congr 1
    congr 1
    apply List.map_congr_left
    intro ck hck
    have h1 := hcm (k, n) hm ck hck
    obtain ⟨cn, hcn⟩ := jsMapGet_isSome_of_mem h ck h1
    have hcnm : (ck, cn) ∈ h := (jsMapGet_mem _ _ _ hcn).1
    have hnodeOf : nodeOf h ck = cn := by
      rw [nodeOf, hcn]
      rfl
    obtain ⟨seg, hdec, _⟩ := hcs (k, n) hm ck hck
    have hdec' : ck = k ++ "/" ++ seg := hdec
    have hlen : ck.data.length = k.data.length + 1 + seg.data.length := by
      rw [hdec', string_length_append, string_length_append]
      have : ("/" : String).data.length = 1 := by decide
      omega
    rw [hnodeOf]
    exact ih ck cn hcnm (by omega)

theorem subtreeNotes_stable_ge (h : Heap)
    (hcm : ∀ e ∈ h, ∀ ck ∈ e.2.children, ck ∈ h.map Prod.fst)
    (hcs : ∀ e ∈ h, ∀ ck ∈ e.2.children,
      ∃ seg, ck = e.1 ++ "/" ++ seg ∧ ('/' : Char) ∉ seg.data) :
    ∀ (d fuel : Nat) (k : String) (n : TagTreeNode), (k, n) ∈ h →
      maxKeyLen h ≤ fuel + k.data.length →
      subtreeNotes h (fuel + d) n = subtreeNotes h fuel n := by
  intro d
  induction d with
  | zero => intro fuel k n _ _; rfl
  | succ d ih =>
    intro fuel k n hm hb
    have h1 : fuel + (d + 1) = (fuel + d) + 1 := by omega
    rw [h1, subtreeNotes_stable h hcm hcs (fuel + d) k n hm (by omega), ih fuel k n hm hb]

/-- **C3.**  `getTotalNoteCount` computes exactly the size of the deduplicated
union of `notesWithTag` over a node and its descendants: at every recursion bound
the computed count equals the cardinality of that union truncated at the same
depth (first clause); on a tree produced by `buildTagTreeFromDatabase` the value
is the same at every bound that exhausts the deepest key chain, so it is the size
of the union over *all* descendants and in particular never exceeds the number of
distinct files tagged in the subtree (second clause); and a file tagged at two
nested depths of one subtree (`a` and `a/b`) is counted exactly once (third
clause). -/
theorem getTotalNoteCount_is_union_size :
    (∀ (h : Heap) (fuel : Nat) (k : String),
      getTotalNoteCount h fuel k = (subtreeNotes h fuel (nodeOf h k)).card) ∧
    (∀ (files : List (String × FileData)) (k : String) (n : TagTreeNode) (fuel₁ fuel₂ : Nat),
      (k, n) ∈ (buildTagTreeFromDatabase files).allNodes →
      maxKeyLen (buildTagTreeFromDatabase files).allNodes ≤ fuel₁ →
      maxKeyLen (buildTagTreeFromDatabase files).allNodes ≤ fuel₂ →
      getTotalNoteCount (buildTagTreeFromDatabase files).allNodes fuel₁ k =
        getTotalNoteCount (buildTagTreeFromDatabase files).allNodes fuel₂ k) ∧
    getTotalNoteCount (buildTagTreeFromDatabase
      [("f.md", ⟨none, none, some ["a", "a/b"], none⟩)]).allNodes 5 "a" = 1 := by
  refine ⟨getTotalNoteCount_eq_card, ?_, by decide⟩
  intro files k n fuel₁ fuel₂ hm h1 h2
  have hinv := buildTagTree_inv files
  have hstable : ∀ fuel, maxKeyLen (buildTagTreeFromDatabase files).allNodes ≤ fuel →
      subtreeNotes (buildTagTreeFromDatabase files).allNodes fuel n =
        subtreeNotes (buildTagTreeFromDatabase files).allNodes
          (maxKeyLen (buildTagTreeFromDatabase files).allNodes) n := by
    intro fuel hf
    have hd : fuel = maxKeyLen (buildTagTreeFromDatabase files).allNodes +
        (fuel - maxKeyLen (buildTagTreeFromDatabase files).allNodes) := by omega
    rw [hd]
    exact subtreeNotes_stable_ge _ hinv.childMem hinv.childShape _ _ k n hm (by omega)
  have hnodeOf : nodeOf (buildTagTreeFromDatabase files).allNodes k = n :=
    nodeOf_of_mem_nodup _ k n hinv.nodup hm
  rw [getTotalNoteCount_eq_card, getTotalNoteCount_eq_card, hnodeOf,
    hstable fuel₁ h1, hstable fuel₂ h2]

/-- Witness for C3: on the example tree (`project`, `project/sub`), the count at
the root is bound-independent once the bound reaches the longest key. -/
theorem getTotalNoteCount_is_union_size_witness :
    getTotalNoteCount (buildTagTreeFromDatabase projectDb).allNodes 11 "project" =
      getTotalNoteCount (buildTagTreeFromDatabase projectDb).allNodes 20 "project" :=
  getTotalNoteCount_is_union_size.2.1 projectDb "project"
    ⟨"project", "project", ["project/sub"], ["f1.md"]⟩ 11 20 (by decide) (by decide) (by decide)

/-- **C4.**  Tag identity is case-insensitive under the fixed record iteration
order: in every built index the node-map keys are pairwise distinct and each node
is stored under the lowercasing of its own displayed path, so every
case-normalized path identifies exactly one node; and in the two-file example
(one file tagged `Project`, another `project`, in either scan order) exactly one
node is produced, keyed `project`, whose displayed path is the casing variant
encountered first. -/
theorem case_insensitive_tag_identity :
    (∀ files : List (String × FileData),
      ((buildTagTreeFromDatabase files).allNodes.map Prod.fst).Nodup) ∧
    (∀ files : List (String × FileData), ∀ e ∈ (buildTagTreeFromDatabase files).allNodes,
      e.1 = lowerStr e.2.path) ∧
    (∀ files : List (String × FileData), ∀ (k : String) (n₁ n₂ : TagTreeNode),
      (k, n₁) ∈ (buildTagTreeFromDatabase files).allNodes →
      (k, n₂) ∈ (buildTagTreeFromDatabase files).allNodes → n₁ = n₂) ∧
    ((buildTagTreeFromDatabase
        [("a.md", ⟨none, none, some ["Project"], none⟩),
         ("b.md", ⟨none, none, some ["project"], none⟩)]).allNodes.length = 1 ∧
      (nodeOf (buildTagTreeFromDatabase
        [("a.md", ⟨none, none, some ["Project"], none⟩),
         ("b.md", ⟨none, none, some ["project"], none⟩)]).allNodes "project").path =
        "Project") ∧
    ((buildTagTreeFromDatabase
        [("b.md", ⟨none, none, some ["project"], none⟩),
         ("a.md", ⟨none, none, some ["Project"], none⟩)]).allNodes.length = 1 ∧
      (nodeOf (buildTagTreeFromDatabase
        [("b.md", ⟨none, none, some ["project"], none⟩),
         ("a.md", ⟨none, none, some ["Project"], none⟩)]).allNodes "project").path =
        "project") := by
  refine ⟨fun files => (buildTagTree_inv files).nodup,
    fun files => (buildTagTree_inv files).norm, ?_, by decide, by decide⟩
  intro files k n₁ n₂ h1 h2
  have hk1 := jsMapGet_of_mem_nodup _ k n₁ (buildTagTree_inv files).nodup h1
  have hk2 := jsMapGet_of_mem_nodup _ k n₂ (buildTagTree_inv files).nodup h2
  rw [hk1] at hk2
  exact Option.some.inj hk2

/-- Witness for C4: in the concrete two-casing build, the key `project` resolves
to a unique node. -/
theorem case_insensitive_tag_identity_witness :
    (⟨"Project", "Project", [], ["a.md", "b.md"]⟩ : TagTreeNode) =
      ⟨"Project", "Project", [], ["a.md", "b.md"]⟩ :=
  case_insensitive_tag_identity.2.2.1
    [("a.md", ⟨none, none, some ["Project"], none⟩),
     ("b.md", ⟨none, none, some ["project"], none⟩)] "project"
    ⟨"Project", "Project", [], ["a.md", "b.md"]⟩
    ⟨"Project", "Project", [], ["a.md", "b.md"]⟩ (by decide) (by decide)

/-- **C10.**  Every node the build creates is wired into the returned tree: a
node whose key has no slash is registered in the root `tree` map; a node whose
key contains a slash is linked in the children map of the node at its immediate
ancestor prefix (its key minus the final slash-free segment), under the child's
own case-normalized full path; consequently every node is reachable from the
root map by following children links. -/
theorem built_nodes_reachable (files : List (String × FileData)) :
    ∀ e ∈ (buildTagTreeFromDatabase files).allNodes,
      (('/' : Char) ∉ e.1.data → e.1 ∈ (buildTagTreeFromDatabase files).tree) ∧
      (('/' : Char) ∈ e.1.data →
        ∃ pk seg, e.1 = pk ++ "/" ++ seg ∧ ('/' : Char) ∉ seg.data ∧
          pk ∈ (buildTagTreeFromDatabase files).allNodes.map Prod.fst ∧
          e.1 ∈ (nodeOf (buildTagTreeFromDatabase files).allNodes pk).children) ∧
      ReachableIn (buildTagTreeFromDatabase files).allNodes
        (buildTagTreeFromDatabase files).tree e.1 := by
  have hinv := buildTagTree_inv files
  have hreach : ∀ (N : Nat) (e : String × TagTreeNode),
      e ∈ (buildTagTreeFromDatabase files).allNodes → e.1.data.length < N →
      ReachableIn (buildTagTreeFromDatabase files).allNodes
        (buildTagTreeFromDatabase files).tree e.1 := by
    intro N
    induction N with
    | zero => intro e _ hlen; omega
    | succ N ih =>
      intro e he hlen
      by_cases hs : ('/' : Char) ∈ e.1.data
      · obtain ⟨pk, seg, hdec, hns, hpm, hl⟩ := hinv.linked e he hs
        obtain ⟨pn, hpn⟩ := jsMapGet_isSome_of_mem _ pk hpm
        have hpkmem : (pk, pn) ∈ (buildTagTreeFromDatabase files).allNodes :=
          (jsMapGet_mem _ _ _ hpn).1
        have hlt : pk.data.length < N := by
          have hl2 : e.1.data.length = pk.data.length + 1 + seg.data.length := by
            rw [hdec, string_length_append, string_length_append]
            have : ("/" : String).data.length = 1 := by decide
            omega
          omega
        exact ReachableIn.child pk e.1 (ih (pk, pn) hpkmem hlt) hpm hl
      · exact ReachableIn.root e.1 (hinv.rootMem e he hs)
  intro e he
  exact ⟨hinv.rootMem e he, hinv.linked e he, hreach (e.1.data.length + 1) e he (by omega)⟩

/-- Witness for C10: the node `project/sub` of the example build is linked under
`project` and reachable from the root map. -/
theorem built_nodes_reachable_witness :
    ReachableIn (buildTagTreeFromDatabase projectDb).allNodes
      (buildTagTreeFromDatabase projectDb).tree "project/sub" :=
  (built_nodes_reachable projectDb
    ("project/sub", ⟨"sub", "project/sub", [], ["f2.md"]⟩) (by decide)).2.2
